import Mathlib

/-!
Shallow embedding of the edit-recording / playback core of the block-editor
repository:

* `src/src/lib/version-history.ts` — `VersionHistory` (edit recorder and
  snapshot store): `captureEdit`, `createSnapshot`,
  `initializeVersionTracking`, `findClosestSnapshot`.
* `src/unnamed/part_004` — `PlaybackEngine`: `seekToTimestamp`,
  `seekToEditIndex`, `stepForward`, `stepBackward`, `playForward`, `pause`,
  `setPlaybackSpeed`, `getPlaybackSpeed`, `findClosestSnapshot`.

Modelling choices:

* The Yjs document is opaque to this code (the spec treats it as an external
  collaborator).  A document (`Doc`) is modelled as the list of opaque update
  identifiers (`Update := Nat`) that have been applied to it, in application
  order; `Y.applyUpdate` is `applyUpdate` (append) and
  `Y.encodeStateAsUpdate doc` is `doc` itself.  Rendering the shared text
  container (`doc.getText("shared").toString()`) is an explicit `render`
  parameter of type `Doc → List Char`.
* JavaScript numbers holding timestamps are modelled as `Int`; the playback
  speed and the sleep durations computed from it (which use `/`) as `ℚ`.
* `Date.now()` is modelled as an explicit `now : Int` argument of the
  functions that call it.
* TypeScript `throw` of the two argument errors is modelled with
  `Except PlaybackError`; a JavaScript out-of-bounds element access that
  would dereference `undefined` (only reachable from ill-formed engine
  state) is modelled as `Option` (`none`).
* The `while` loops of the source iterate an index over the tail of the edit
  array; they are embedded as structural recursion over that tail
  (`edits.drop idx`), carrying the index for the emitted events.
-/

namespace BlockEditor

/-- An opaque Yjs update (the raw delta bytes), identified by a tag. -/
abbrev Update := Nat

/-- A Yjs document, modelled as the sequence of updates applied to it. -/
abbrev Doc := List Update

/-- `Y.applyUpdate doc u` in the free model: record the update. -/
def applyUpdate (doc : Doc) (u : Update) : Doc := doc ++ [u]

/-- Operation kind of a recorded edit (version-history.ts line 12). -/
inductive Operation
  | insert
  | delete
  | format
  | unknown
deriving DecidableEq, Repr

/-- Position hint of a recorded edit (version-history.ts lines 13-16). -/
structure Position where
  key : String
  offset : Nat
deriving DecidableEq, Repr

/-- `VersionedEdit` (version-history.ts lines 7-20). -/
structure VersionedEdit where
  id : String
  timestamp : Int
  clientID : Nat
  userName : String
  operation : Operation
  position : Position
  content : Option (List Char)
  yUpdate : Update
  contentLength : Option Nat
deriving DecidableEq, Repr

/-- `Snapshot` (version-history.ts lines 25-31).  `editIndex` is the index of
the last edit reflected in `yDocState`, `-1` if none, hence `Int`. -/
structure Snapshot where
  id : String
  timestamp : Int
  yDocState : Doc
  editIndex : Int
  docLength : Nat
deriving DecidableEq, Repr

/-- Event kinds of `PlaybackEvent` (part_004 line 23). -/
inductive PlaybackEventType
  | seek
  | playback
  | stop
  | speedChange
deriving DecidableEq, Repr

/-- `PlaybackEvent` (part_004 lines 22-28). -/
structure PlaybackEvent where
  type : PlaybackEventType
  currentEditIndex : Nat
  totalEdits : Nat
  currentTimestamp : Int
  edit : Option VersionedEdit
deriving DecidableEq, Repr

/-- The two argument errors thrown by the engine (part_004 lines 101, 371). -/
inductive PlaybackError
  | invalidIndex
  | invalidSpeed
deriving DecidableEq, Repr

/-- Persistent state of a `PlaybackEngine` instance (part_004 lines 39-43).
Event listeners are identified by opaque tags. -/
structure EngineState where
  playbackDoc : Option Doc
  currentEditIndex : Nat
  isPlaying : Bool
  playbackSpeed : ℚ
  eventListeners : List Nat
deriving DecidableEq, Repr

/-- Field values of a freshly constructed `PlaybackEngine` (part_004 lines
39-45). -/
def engineInit : EngineState :=
  { playbackDoc := none
    currentEditIndex := 0
    isPlaying := false
    playbackSpeed := 1
    eventListeners := [] }

/-- `emitEvent` fan-out: every current listener receives every emitted event
(part_004 lines 426-430). -/
def deliveries (st : EngineState) (events : List PlaybackEvent) :
    List (Nat × PlaybackEvent) :=
  events.foldr (fun e acc => st.eventListeners.map (fun l => (l, e)) ++ acc) []

/-- The loop body of `PlaybackEngine.findClosestSnapshot` (part_004 lines
441-447): keep `s` when it does not exceed the target and beats the candidate
held so far. -/
def closestStep (targetTime : Int) (closest : Option Snapshot) (s : Snapshot) :
    Option Snapshot :=
  if s.timestamp ≤ targetTime then
    match closest with
    | none => some s
    | some c => if c.timestamp < s.timestamp then some s else some c
  else closest

/-- `PlaybackEngine.findClosestSnapshot` (part_004 lines 435-450): linear scan
keeping the greatest-timestamp snapshot whose timestamp does not exceed the
target. -/
def findClosestSnapshot (targetTime : Int) (snapshots : List Snapshot) :
    Option Snapshot :=
  snapshots.foldl (closestStep targetTime) none

/-- Index of the first edit not yet reflected in a snapshot:
`snapshot.editIndex + 1` (part_004 line 64), clamped to `Nat`. -/
def startIndex (s : Snapshot) : Nat := (s.editIndex + 1).toNat

/-- The `while` loop of `seekToTimestamp` (part_004 lines 71-79): starting at
index `idx` with `rest = edits.drop idx`, apply each edit whose timestamp is
at most `targetTime`, stopping at the first edit exceeding it. -/
def seekLoop (targetTime : Int) (doc : Doc) (idx : Nat) :
    List VersionedEdit → Doc × Nat
  | [] => (doc, idx)
  | e :: rest =>
    if e.timestamp > targetTime then (doc, idx)
    else seekLoop targetTime (applyUpdate doc e.yUpdate) (idx + 1) rest

/-- `PlaybackEngine.seekToTimestamp` (part_004 lines 50-90): load the nearest
at-or-before snapshot (or start empty), replay subsequent edits with timestamp
`≤ targetTime`, emit a seek event, return the updated state and emissions. -/
def seekToTimestamp (targetTime : Int) (edits : List VersionedEdit)
    (snapshots : List Snapshot) (st : EngineState) :
    EngineState × List PlaybackEvent :=
  let snap := findClosestSnapshot targetTime snapshots
  let start : Doc × Nat :=
    match snap with
    | some s => (s.yDocState, startIndex s)
    | none => ([], 0)
  let res := seekLoop targetTime start.1 start.2 (edits.drop start.2)
  let ev : PlaybackEvent :=
    { type := PlaybackEventType.seek
      currentEditIndex := res.2
      totalEdits := edits.length
      currentTimestamp := targetTime
      edit := none }
  ({ st with playbackDoc := some res.1, currentEditIndex := res.2 }, [ev])

/-- `PlaybackEngine.seekToEditIndex` (part_004 lines 95-106): reject an index
outside `[0, edits.length)`, otherwise delegate to `seekToTimestamp` at that
edit's timestamp. -/
def seekToEditIndex (targetIndex : Int) (edits : List VersionedEdit)
    (snapshots : List Snapshot) (st : EngineState) :
    Except PlaybackError (EngineState × List PlaybackEvent) :=
  if h : targetIndex < 0 ∨ (edits.length : Int) ≤ targetIndex then
    Except.error PlaybackError.invalidIndex
  else
    let targetTime := (edits.get ⟨targetIndex.toNat, by omega⟩).timestamp
    Except.ok (seekToTimestamp targetTime edits snapshots st)

/-- `PlaybackEngine.stepForward` (part_004 lines 278-299): materialise an
empty document if none, then apply the edit at the current index (if any),
emit a playback event and advance the index. -/
def stepForward (edits : List VersionedEdit) (st : EngineState) :
    EngineState × List PlaybackEvent :=
  let doc := st.playbackDoc.getD []
  if h : st.currentEditIndex < edits.length then
    let edit := edits.get ⟨st.currentEditIndex, h⟩
    let doc' := applyUpdate doc edit.yUpdate
    let ev : PlaybackEvent :=
      { type := PlaybackEventType.playback
        currentEditIndex := st.currentEditIndex
        totalEdits := edits.length
        currentTimestamp := edit.timestamp
        edit := some edit }
    ({ st with
        playbackDoc := some doc'
        currentEditIndex := st.currentEditIndex + 1 }, [ev])
  else
    ({ st with playbackDoc := some doc }, [])

/-- The rebuild loop of `stepBackward` (part_004 lines 326-329): apply the
edits of `slice` (the edits from the snapshot's start index up to the new
current index) in order. -/
def rebuildLoop (doc : Doc) (slice : List VersionedEdit) : Doc :=
  slice.foldl (fun d e => applyUpdate d e.yUpdate) doc

/-- `PlaybackEngine.stepBackward` (part_004 lines 304-342): a no-op returning
the current (or a fresh empty) document when the index is `0`; otherwise
decrement the index and rebuild the document from the nearest snapshot up
through the new index, emitting a playback event.  `none` models the
`TypeError` a JavaScript run would raise when the decremented index is outside
the edit array. -/
def stepBackward (edits : List VersionedEdit) (snapshots : List Snapshot)
    (st : EngineState) : Option (Doc × EngineState × List PlaybackEvent) :=
  if st.currentEditIndex = 0 then
    some (st.playbackDoc.getD [], st, [])
  else
    let idx := st.currentEditIndex - 1
    if h : idx < edits.length then
      let edit := edits.get ⟨idx, h⟩
      let snap := findClosestSnapshot edit.timestamp snapshots
      let start : Doc × Nat :=
        match snap with
        | some s => (s.yDocState, startIndex s)
        | none => ([], 0)
      let doc := rebuildLoop start.1 ((edits.drop start.2).take (idx + 1 - start.2))
      let ev : PlaybackEvent :=
        { type := PlaybackEventType.playback
          currentEditIndex := idx
          totalEdits := edits.length
          currentTimestamp := edit.timestamp
          edit := some edit }
      some (doc, { st with playbackDoc := some doc, currentEditIndex := idx }, [ev])
    else none

/-- `PlaybackEngine.pause` (part_004 lines 347-356): clear the playing flag
and emit a stop event carrying the current index (and `totalEdits = 0`). -/
def pause (now : Int) (st : EngineState) : EngineState × List PlaybackEvent :=
  ({ st with isPlaying := false },
   [{ type := PlaybackEventType.stop
      currentEditIndex := st.currentEditIndex
      totalEdits := 0
      currentTimestamp := now
      edit := none }])

/-- `PlaybackEngine.setPlaybackSpeed` (part_004 lines 369-382): reject
`speed ≤ 0`, otherwise store the speed and emit a speed-change event. -/
def setPlaybackSpeed (speed : ℚ) (now : Int) (st : EngineState) :
    Except PlaybackError (EngineState × List PlaybackEvent) :=
  if speed ≤ 0 then Except.error PlaybackError.invalidSpeed
  else
    Except.ok ({ st with playbackSpeed := speed },
      [{ type := PlaybackEventType.speedChange
         currentEditIndex := st.currentEditIndex
         totalEdits := 0
         currentTimestamp := now
         edit := none }])

/-- `PlaybackEngine.getPlaybackSpeed` (part_004 lines 387-389). -/
def getPlaybackSpeed (st : EngineState) : ℚ := st.playbackSpeed

/-- The inter-edit delay of `playForward` (part_004 lines 176-179):
`Math.min((nextEdit.timestamp - edit.timestamp) / speed, 2000)`. -/
def playDelay (edit nextEdit : VersionedEdit) (speed : ℚ) : ℚ :=
  min (((nextEdit.timestamp - edit.timestamp : Int) : ℚ) / speed) 2000

/-- One item of a `playForward` run trace: an emitted event (to `onUpdate` or
to the subscribers) or a suspension of the given duration in milliseconds. -/
inductive TraceItem
  | emit (e : PlaybackEvent)
  | wait (d : ℚ)
deriving DecidableEq, Repr

/-- The playback event emitted for the edit `e` at index `idx` during
`playForward` (part_004 lines 162-171). -/
def playbackEvent (edits : List VersionedEdit) (idx : Nat) (e : VersionedEdit) :
    PlaybackEvent :=
  { type := PlaybackEventType.playback
    currentEditIndex := idx
    totalEdits := edits.length
    currentTimestamp := e.timestamp
    edit := some e }

/-- The terminal stop event of the `playForward` loop (part_004 lines
185-194). -/
def forwardStopEvent (edits : List VersionedEdit) (idx : Nat) (now : Int) :
    PlaybackEvent :=
  { type := PlaybackEventType.stop
    currentEditIndex := idx
    totalEdits := edits.length
    currentTimestamp := ((edits.getLast?).map (·.timestamp)).getD now
    edit := none }

/-- The `while` loop of `playForward` (part_004 lines 155-194), with
`rest = edits.drop idx`.  The only suspension points are the sleeps, so a
concurrent `pause()` call can take effect only there: the oracle `pauseAt`
says whether `pause` runs during the `sleeps`-th sleep of this run.  A pause
appends `pause`'s own stop emission (part_004 lines 347-356, with the
pre-increment index and `totalEdits = 0`) to the run's trace and clears the
playing flag; the loop then increments the index, fails its next check and
exits without the end-of-log stop event (guarded by `if (this.isPlaying)`).
Returns the final document, index, playing flag and trace. -/
def playLoop (edits : List VersionedEdit) (speed : ℚ) (pauseAt : Nat → Bool)
    (now : Int) :
    Doc → Nat → Nat → Bool → List VersionedEdit →
    Doc × Nat × Bool × List TraceItem
  | doc, idx, _, playing, [] =>
    if playing then
      (doc, idx, false, [TraceItem.emit (forwardStopEvent edits idx now)])
    else (doc, idx, playing, [])
  | doc, idx, sleeps, playing, e :: rest =>
    if playing then
      let doc' := applyUpdate doc e.yUpdate
      let pbEv := playbackEvent edits idx e
      match rest.head? with
      | some nextEdit =>
        let d := playDelay e nextEdit speed
        if pauseAt sleeps then
          let stopEv : PlaybackEvent :=
            { type := PlaybackEventType.stop
              currentEditIndex := idx
              totalEdits := 0
              currentTimestamp := now
              edit := none }
          let r := playLoop edits speed pauseAt now doc' (idx + 1) (sleeps + 1) false rest
          (r.1, r.2.1, r.2.2.1,
            TraceItem.emit pbEv :: TraceItem.wait d :: TraceItem.emit stopEv :: r.2.2.2)
        else
          let r := playLoop edits speed pauseAt now doc' (idx + 1) (sleeps + 1) true rest
          (r.1, r.2.1, r.2.2.1, TraceItem.emit pbEv :: TraceItem.wait d :: r.2.2.2)
      | none =>
        let r := playLoop edits speed pauseAt now doc' (idx + 1) sleeps playing rest
        (r.1, r.2.1, r.2.2.1, TraceItem.emit pbEv :: r.2.2.2)
    else (doc, idx, playing, [])

/-- `PlaybackEngine.playForward` (part_004 lines 142-197): materialise an
empty document at index 0 if none, set the playing flag, run the loop.  The
unused `_snapshots` parameter mirrors the source signature. -/
def playForward (edits : List VersionedEdit) (_snapshots : List Snapshot)
    (pauseAt : Nat → Bool) (now : Int) (st : EngineState) :
    EngineState × List TraceItem :=
  let start : Doc × Nat :=
    match st.playbackDoc with
    | some d => (d, st.currentEditIndex)
    | none => ([], 0)
  let r := playLoop edits st.playbackSpeed pauseAt now start.1 start.2 0 true
    (edits.drop start.2)
  ({ st with
      playbackDoc := some r.1
      currentEditIndex := r.2.1
      isPlaying := r.2.2.1 }, r.2.2.2)

/-- `String.prototype.indexOf` on the character-list model: index of the
first occurrence of `needle` as a contiguous run of `hay`, `none` when absent
(so `(idxOf? hay needle).isSome` is `hay.includes(needle)`). -/
def idxOf? : List Char → List Char → Option Nat
  | hay, needle =>
    if needle <+: hay then some 0
    else
      match hay with
      | [] => none
      | _ :: t => (idxOf? t needle).map (· + 1)

/-- The classification block of `VersionHistory.captureEdit`
(version-history.ts lines 101-131), as a function of the rendered text before
and after the update.  `substring(a, b)` is `(·.drop a).take (b - a)`. -/
def classifyOperation (contentBefore contentAfter : List Char) :
    Operation × Option (List Char) :=
  if contentBefore.length < contentAfter.length then
    let diff := contentAfter.length - contentBefore.length
    match idxOf? contentAfter contentBefore with
    | some idx =>
      if idx = 0 then
        (Operation.insert, some (contentAfter.drop contentBefore.length))
      else
        (Operation.insert,
          some ((contentAfter.drop (idx + contentBefore.length)).take diff))
    | none =>
      (Operation.insert, some (contentAfter.take (min 50 contentAfter.length)))
  else if contentAfter.length < contentBefore.length then
    (Operation.delete, none)
  else if contentAfter ≠ contentBefore then
    (Operation.format, none)
  else
    (Operation.unknown, none)

/-- Claim-side definition following the spec's words (§4.1 step 2): the
inserted text recovered by locating `before` inside `after` — the slice of
length `len(after) − len(before)` that follows the located occurrence — with
the first `min(50, len(after))` characters of `after` as the fallback when
`before` does not occur in `after`.  Stated separately from
`classifyOperation` so the code's two containment branches can be compared
against it. -/
def insertedSlice (before after : List Char) : List Char :=
  match idxOf? after before with
  | some idx => (after.drop (idx + before.length)).take (after.length - before.length)
  | none => after.take (min 50 after.length)

/-- Mutable state of a `VersionHistory` instance (version-history.ts lines
38-44).  The subscriber set is omitted: recorder notifications always carry
the full lists and are not the subject of any claim. -/
structure HistoryState where
  edits : List VersionedEdit
  snapshots : List Snapshot
  snapshotInterval : Nat
  editCounter : Nat
deriving DecidableEq, Repr

/-- A fresh `VersionHistory` with the given interval (version-history.ts
lines 46-48). -/
def historyInit (snapshotInterval : Nat) : HistoryState :=
  { edits := []
    snapshots := []
    snapshotInterval := snapshotInterval
    editCounter := 0 }

/-- `VersionHistory.createSnapshot` (version-history.ts lines 163-175):
append a snapshot of the current document state with
`editIndex = edits.length - 1`. -/
def createSnapshot (now : Int) (render : Doc → List Char) (docState : Doc)
    (h : HistoryState) : HistoryState :=
  let snapshot : Snapshot :=
    { id := "snap-" ++ toString now ++ "-" ++ toString h.snapshots.length
      timestamp := now
      yDocState := docState
      editIndex := (h.edits.length : Int) - 1
      docLength := (render docState).length }
  { h with snapshots := h.snapshots ++ [snapshot] }

/-- The per-delta inputs of `captureEdit` that come from outside the recorder:
the delta itself, the awareness client id, the local user name (if any) and
the `Date.now()` timestamp. -/
structure CaptureContext where
  update : Update
  clientID : Nat
  userName : Option String
  timestamp : Int
deriving DecidableEq, Repr

/-- The `VersionedEdit` record built by `captureEdit` (version-history.ts
lines 133-147): classification is by diffing the rendered text of the
document state seen by the handler against that state with the delta
applied. -/
def capturedEdit (render : Doc → List Char) (ctx : CaptureContext)
    (docState : Doc) (h : HistoryState) : VersionedEdit :=
  let contentBefore := render docState
  let contentAfter := render (applyUpdate docState ctx.update)
  let cls := classifyOperation contentBefore contentAfter
  { id := toString ctx.clientID ++ "-" ++ toString ctx.timestamp ++ "-" ++
      toString h.editCounter
    timestamp := ctx.timestamp
    clientID := ctx.clientID
    userName := ctx.userName.getD "Unknown"
    operation := cls.1
    position := { key := "ytext", offset := 0 }
    content := cls.2
    yUpdate := ctx.update
    contentLength := cls.2.map List.length }

/-- `VersionHistory.captureEdit` (version-history.ts lines 76-158): append
the classified record, and snapshot when the new edit count is a multiple of
the interval. -/
def captureEdit (render : Doc → List Char) (ctx : CaptureContext)
    (docState : Doc) (h : HistoryState) : HistoryState :=
  let edit := capturedEdit render ctx docState h
  let h' := { h with edits := h.edits ++ [edit], editCounter := h.editCounter + 1 }
  if h'.edits.length % h.snapshotInterval = 0 then
    createSnapshot ctx.timestamp render docState h'
  else h'

/-- `VersionHistory.initializeVersionTracking` (version-history.ts lines
53-71): capture the initial snapshot (the update subscription itself is the
caller's concern). -/
def initializeVersionTracking (now : Int) (render : Doc → List Char)
    (docState : Doc) (h : HistoryState) : HistoryState :=
  createSnapshot now render docState h

/-- Deliver a sequence of deltas to `captureEdit` in order; each element
carries the capture context and the document state seen by the handler. -/
def captureAll (render : Doc → List Char)
    (inputs : List (CaptureContext × Doc)) (h : HistoryState) : HistoryState :=
  inputs.foldl (fun acc p => captureEdit render p.1 p.2 acc) h

/-! Specification-level predicates used in the claims' hypotheses. -/

/-- The §3 edit-log invariant: edits are stored in non-decreasing timestamp
order. -/
def timestampsSorted (edits : List VersionedEdit) : Prop :=
  edits.Pairwise (fun a b => a.timestamp ≤ b.timestamp)

/-- Strictly increasing timestamps (no two edits share a millisecond). -/
def timestampsStrict (edits : List VersionedEdit) : Prop :=
  edits.Pairwise (fun a b => a.timestamp < b.timestamp)

/-- Replay a list of edits onto an empty document. -/
def replayEdits (edits : List VersionedEdit) : Doc :=
  edits.map (·.yUpdate)

/-- The snapshot invariant, as the claims state it: the snapshot's
`editIndex` is in `[-1, edits.length)` and replaying edits
`[editIndex + 1 ..)` onto the decoded snapshot state reproduces the content
of a full replay of the edit log from empty state. -/
def snapshotInvariant (edits : List VersionedEdit) (s : Snapshot) : Prop :=
  -1 ≤ s.editIndex ∧ startIndex s ≤ edits.length ∧
    s.yDocState ++ replayEdits (edits.drop (startIndex s)) = replayEdits edits

/-- Timestamp coherence of a snapshot with the edit log: every edit already
reflected in the snapshot (index ≤ `editIndex`) has a timestamp at most the
snapshot's.  The recorder guarantees this (`createSnapshot` stamps
`Date.now()` after the reflected edits were stamped), but it is not implied
by the replay invariant alone. -/
def snapshotCoherent (edits : List VersionedEdit) (s : Snapshot) : Prop :=
  ∀ e ∈ edits.take (startIndex s), e.timestamp ≤ s.timestamp

instance (edits : List VersionedEdit) : Decidable (timestampsSorted edits) := by
  unfold timestampsSorted; infer_instance

instance (edits : List VersionedEdit) : Decidable (timestampsStrict edits) := by
  unfold timestampsStrict; infer_instance

instance (edits : List VersionedEdit) (s : Snapshot) :
    Decidable (snapshotInvariant edits s) := by
  unfold snapshotInvariant; infer_instance

instance (edits : List VersionedEdit) (s : Snapshot) :
    Decidable (snapshotCoherent edits s) := by
  unfold snapshotCoherent; infer_instance

/-- An edit record with the given timestamp and update and neutral remaining
fields, for concrete scenarios. -/
def mkEdit (ts : Int) (u : Update) : VersionedEdit :=
  { id := ""
    timestamp := ts
    clientID := 0
    userName := ""
    operation := Operation.unknown
    position := { key := "", offset := 0 }
    content := none
    yUpdate := u
    contentLength := none }

/-! Helper lemmas about the seek path. -/

theorem replayEdits_append (a b : List VersionedEdit) :
    replayEdits (a ++ b) = replayEdits a ++ replayEdits b :=
  List.map_append _ a b

theorem seekLoop_eq (t : Int) :
    ∀ (l : List VersionedEdit) (doc : Doc) (idx : Nat),
      seekLoop t doc idx l =
        (doc ++ replayEdits (l.takeWhile fun e => e.timestamp ≤ t),
         idx + (l.takeWhile fun e => e.timestamp ≤ t).length) := by
  intro l
  induction l with
  | nil => intro doc idx; simp [seekLoop, replayEdits]
  | cons e rest ih =>
    intro doc idx
    by_cases h : e.timestamp ≤ t
    · have hgt : ¬ e.timestamp > t := not_lt.mpr h
      rw [seekLoop, if_neg hgt, ih]
      simp [List.takeWhile_cons, h, applyUpdate, replayEdits, List.append_assoc]
      all_goals omega
    · have hgt : e.timestamp > t := lt_of_not_ge h
      rw [seekLoop, if_pos hgt]
      simp [List.takeWhile_cons, h, replayEdits]

theorem sorted_filter_eq_takeWhile (t : Int) :
    ∀ (edits : List VersionedEdit), timestampsSorted edits →
      edits.filter (fun e => e.timestamp ≤ t) =
        edits.takeWhile (fun e => e.timestamp ≤ t) := by
  intro edits
  induction edits with
  | nil => intro _; rfl
  | cons e rest ih =>
    intro hs
    rw [timestampsSorted, List.pairwise_cons] at hs
    by_cases h : e.timestamp ≤ t
    · simp only [List.filter_cons, List.takeWhile_cons, decide_eq_true_eq, h,
        if_true]
      exact congrArg _ (ih hs.2)
    · simp only [List.filter_cons, List.takeWhile_cons, decide_eq_true_eq, h,
        if_false]
      rw [List.filter_eq_nil_iff.mpr]
      intro a ha
      have : e.timestamp ≤ a.timestamp := hs.1 a ha
      simp only [decide_eq_true_eq]
      omega

theorem take_append_takeWhile (p : VersionedEdit → Bool) :
    ∀ (edits : List VersionedEdit) (i : Nat),
      (∀ e ∈ edits.take i, p e = true) →
      edits.take i ++ (edits.drop i).takeWhile p = edits.takeWhile p := by
  intro edits
  induction edits with
  | nil => intro i _; simp
  | cons e rest ih =>
    intro i hp
    cases i with
    | zero => simp
    | succ j =>
      have he : p e = true := hp e (by simp)
      simp only [List.take_succ_cons, List.drop_succ_cons, List.cons_append,
        List.takeWhile_cons, he]
      exact congrArg _ (ih j (fun a ha => hp a (by simp [ha])))

theorem closestStep_cases (t : Int) (acc : Option Snapshot) (s c : Snapshot)
    (h : closestStep t acc s = some c) :
    acc = some c ∨ (c = s ∧ s.timestamp ≤ t) := by
  cases acc with
  | none =>
    by_cases hts : s.timestamp ≤ t
    · simp only [closestStep, if_pos hts, Option.some.injEq] at h
      right; exact ⟨h.symm, hts⟩
    · simp only [closestStep, if_neg hts] at h
      left; exact h
  | some c0 =>
    by_cases hts : s.timestamp ≤ t
    · by_cases hlt : c0.timestamp < s.timestamp
      · simp only [closestStep, if_pos hts, if_pos hlt, Option.some.injEq] at h
        right; exact ⟨h.symm, hts⟩
      · simp only [closestStep, if_pos hts, if_neg hlt] at h
        left; exact h
    · simp only [closestStep, if_neg hts] at h
      left; exact h

theorem findClosest_fold (t : Int) :
    ∀ (l : List Snapshot) (acc : Option Snapshot) (c : Snapshot),
      l.foldl (closestStep t) acc = some c →
      acc = some c ∨ (c ∈ l ∧ c.timestamp ≤ t) := by
  intro l
  induction l with
  | nil => intro acc c h; left; exact h
  | cons s rest ih =>
    intro acc c h
    rcases ih (closestStep t acc s) c h with h1 | h1
    · rcases closestStep_cases t acc s c h1 with h2 | h2
      · left; exact h2
      · right
        refine ⟨?_, ?_⟩
        · rw [h2.1]; exact List.mem_cons_self s rest
        · rw [h2.1]; exact h2.2
    · right; exact ⟨List.mem_cons_of_mem s h1.1, h1.2⟩

theorem findClosestSnapshot_spec (t : Int) (snapshots : List Snapshot)
    (s : Snapshot) (h : findClosestSnapshot t snapshots = some s) :
    s ∈ snapshots ∧ s.timestamp ≤ t := by
  rcases findClosest_fold t snapshots none s h with h1 | h1
  · exact absurd h1 (by simp)
  · exact h1

theorem snapshotInvariant_state (edits : List VersionedEdit) (s : Snapshot)
    (h : snapshotInvariant edits s) :
    s.yDocState = replayEdits (edits.take (startIndex s)) := by
  have hsplit : replayEdits edits =
      replayEdits (edits.take (startIndex s)) ++ replayEdits (edits.drop (startIndex s)) := by
    rw [← replayEdits_append, List.take_append_drop]
  have := h.2.2
  rw [hsplit] at this
  exact List.append_cancel_right this

theorem seekToTimestamp_spec (t : Int) (edits : List VersionedEdit)
    (snapshots : List Snapshot) (st : EngineState)
    (hsorted : timestampsSorted edits)
    (hinv : ∀ s ∈ snapshots, snapshotInvariant edits s)
    (hcoh : ∀ s ∈ snapshots, snapshotCoherent edits s) :
    (seekToTimestamp t edits snapshots st).1.playbackDoc
        = some (replayEdits (edits.filter fun e => e.timestamp ≤ t)) ∧
    (seekToTimestamp t edits snapshots st).1.currentEditIndex
        = (edits.filter fun e => e.timestamp ≤ t).length := by
  rw [sorted_filter_eq_takeWhile t edits hsorted]
  unfold seekToTimestamp
  cases hs : findClosestSnapshot t snapshots with
  | none =>
    simp only [seekLoop_eq, List.drop_zero]
    exact ⟨by simp, by simp⟩
  | some s =>
    obtain ⟨hmem, hts⟩ := findClosestSnapshot_spec t snapshots s hs
    have hi := hinv s hmem
    have hc := hcoh s hmem
    have hstate := snapshotInvariant_state edits s hi
    have hk : startIndex s ≤ edits.length := hi.2.1
    have hall : ∀ e ∈ edits.take (startIndex s),
        (fun e => decide (e.timestamp ≤ t)) e = true := by
      intro e he
      have h1 : e.timestamp ≤ s.timestamp := hc e he
      simp only [decide_eq_true_eq]
      omega
    have hjoin := take_append_takeWhile
      (fun e => decide (e.timestamp ≤ t)) edits (startIndex s) hall
    have hlen : (edits.take (startIndex s)).length = startIndex s := by
      simp [List.length_take, Nat.min_eq_left hk]
    have hlens := congrArg List.length hjoin
    simp only [List.length_append, hlen] at hlens
    simp only [seekLoop_eq, hstate]
    constructor
    · rw [← replayEdits_append, hjoin]
    · omega

theorem takeWhile_eq_take (p : VersionedEdit → Bool) :
    ∀ (l : List VersionedEdit) (m : Nat),
      (∀ j e, j < m → l.get? j = some e → p e = true) →
      (∀ e, l.get? m = some e → p e = false) →
      l.takeWhile p = l.take m := by
  intro l
  induction l with
  | nil => intro m _ _; simp
  | cons a rest ih =>
    intro m h1 h2
    cases m with
    | zero =>
      have ha : p a = false := h2 a rfl
      simp [List.takeWhile_cons, ha]
    | succ n =>
      have ha : p a = true := h1 0 a (Nat.succ_pos n) rfl
      simp only [List.takeWhile_cons, ha, if_true, List.take_succ_cons]
      exact congrArg _ (ih n (fun j e hj he => h1 (j+1) e (by omega) he)
        (fun e he => h2 e he))

theorem strict_takeWhile_eq_take (edits : List VersionedEdit) (i : Nat)
    (hstrict : timestampsStrict edits) (hi : i < edits.length) :
    edits.takeWhile (fun e => e.timestamp ≤ (edits.get ⟨i, hi⟩).timestamp)
      = edits.take (i + 1) := by
  have hp := (List.pairwise_iff_get).mp hstrict
  apply takeWhile_eq_take
  · intro j e hj he
    obtain ⟨hjlen, hge⟩ := List.get?_eq_some.mp he
    simp only [decide_eq_true_eq]
    rcases Nat.lt_or_ge j i with hlt | hge2
    · have := hp ⟨j, hjlen⟩ ⟨i, hi⟩ hlt
      rw [← hge] at *
      omega
    · have hji : j = i := by omega
      subst hji
      rw [← hge]
  · intro e he
    obtain ⟨hjlen, hge⟩ := List.get?_eq_some.mp he
    have := hp ⟨i, hi⟩ ⟨i + 1, hjlen⟩ (by simp)
    simp only [decide_eq_false_iff_not]
    rw [← hge]
    omega

theorem seekToEditIndex_spec (edits : List VersionedEdit)
    (snapshots : List Snapshot) (st : EngineState) (i : Nat)
    (hstrict : timestampsStrict edits)
    (hinv : ∀ s ∈ snapshots, snapshotInvariant edits s)
    (hcoh : ∀ s ∈ snapshots, snapshotCoherent edits s)
    (hi : i < edits.length) :
    seekToEditIndex (i : Int) edits snapshots st =
      Except.ok (seekToTimestamp (edits.get ⟨i, hi⟩).timestamp edits snapshots st) ∧
    (seekToTimestamp (edits.get ⟨i, hi⟩).timestamp edits snapshots st).1.playbackDoc
      = some (replayEdits (edits.take (i + 1))) ∧
    (seekToTimestamp (edits.get ⟨i, hi⟩).timestamp edits snapshots st).1.currentEditIndex
      = i + 1 := by
  have hsorted : timestampsSorted edits :=
    hstrict.imp (fun h => le_of_lt h)
  have hspec := seekToTimestamp_spec (edits.get ⟨i, hi⟩).timestamp edits snapshots
    st hsorted hinv hcoh
  have hrw : edits.filter (fun e => e.timestamp ≤ (edits.get ⟨i, hi⟩).timestamp)
      = edits.take (i + 1) := by
    rw [sorted_filter_eq_takeWhile _ edits hsorted,
      strict_takeWhile_eq_take edits i hstrict hi]
  rw [hrw] at hspec
  refine ⟨?_, hspec.1, ?_⟩
  · unfold seekToEditIndex
    have hcond : ¬((i : Int) < 0 ∨ (edits.length : Int) ≤ (i : Int)) := by
      omega
    rw [dif_neg hcond]
    congr 2
  · rw [hspec.2]
    simp [List.length_take, Nat.min_eq_left (by omega : i + 1 ≤ edits.length)]

/-- `stepForward` at an in-range index `k`: apply the edit at `k`, emit its
playback event, advance to `k + 1`. -/
theorem stepForward_applies (edits : List VersionedEdit) (st : EngineState)
    (k : Nat) (e : VersionedEdit) (hk : st.currentEditIndex = k)
    (he : edits.get? k = some e) :
    stepForward edits st =
      ({ st with
          playbackDoc := some (applyUpdate (st.playbackDoc.getD []) e.yUpdate)
          currentEditIndex := k + 1 },
       [{ type := PlaybackEventType.playback
          currentEditIndex := k
          totalEdits := edits.length
          currentTimestamp := e.timestamp
          edit := some e }]) := by
  subst hk
  obtain ⟨hl, hg⟩ := List.get?_eq_some.mp he
  subst hg
  unfold stepForward
  rw [dif_pos hl]

/-! The claims. -/

/-- Concrete two-edit log (timestamps 0 and 100) and a snapshot that
satisfies the replay invariant but carries a timestamp (5) smaller than that
of its last reflected edit (100). -/
def c1Edits : List VersionedEdit := [mkEdit 0 0, mkEdit 100 1]

def c1Snap : Snapshot :=
  { id := "s", timestamp := 5, yDocState := [0, 1], editIndex := 1, docLength := 0 }

/-- C1 counterexample: with the edit log `c1Edits` (non-decreasing
timestamps) and the snapshot list `[c1Snap]` (which satisfies the snapshot
replay invariant stated in the claim), `seekToTimestamp 50` materializes
`[0, 1]`, while replaying from empty every edit with timestamp at most 50
gives `[0]`: the claim's hypotheses are met but its conclusion fails, because
nothing ties a snapshot's timestamp to the timestamps of the edits it
reflects. -/
theorem seek_snapshot_equivalence_counterexample :
    timestampsSorted c1Edits ∧
    (∀ s ∈ [c1Snap], snapshotInvariant c1Edits s) ∧
    (seekToTimestamp 50 c1Edits [c1Snap] engineInit).1.playbackDoc
        = some [0, 1] ∧
    replayEdits (c1Edits.filter fun e => e.timestamp ≤ 50) = [0] ∧
    (some [0, 1] : Option Doc) ≠ some [0] := by
  decide

/-- C1 (amended): if additionally every snapshot is timestamp-coherent (each
edit it reflects has a timestamp at most the snapshot's — which the recorder
guarantees), then for every target `t`, edit log with non-decreasing
timestamps and snapshots satisfying the replay invariant, `seekToTimestamp`
materializes a document identical to replaying from empty every edit whose
timestamp is at most `t`. -/
theorem seek_snapshot_equivalence (t : Int) (edits : List VersionedEdit)
    (snapshots : List Snapshot) (st : EngineState)
    (hsorted : timestampsSorted edits)
    (hinv : ∀ s ∈ snapshots, snapshotInvariant edits s)
    (hcoh : ∀ s ∈ snapshots, snapshotCoherent edits s) :
    (seekToTimestamp t edits snapshots st).1.playbackDoc
      = some (replayEdits (edits.filter fun e => e.timestamp ≤ t)) :=
  (seekToTimestamp_spec t edits snapshots st hsorted hinv hcoh).1

def c1GoodSnap : Snapshot :=
  { id := "s1", timestamp := 10, yDocState := [0], editIndex := 0, docLength := 0 }

def c1GoodEdits : List VersionedEdit := [mkEdit 0 0, mkEdit 10 1]

/-- C1 witness: the amended theorem applied to a concrete sorted log with a
coherent, invariant-satisfying snapshot. -/
theorem seek_snapshot_equivalence_witness :
    timestampsSorted c1GoodEdits ∧
    (∀ s ∈ [c1GoodSnap], snapshotInvariant c1GoodEdits s) ∧
    (∀ s ∈ [c1GoodSnap], snapshotCoherent c1GoodEdits s) ∧
    (seekToTimestamp 10 c1GoodEdits [c1GoodSnap] engineInit).1.playbackDoc
      = some (replayEdits (c1GoodEdits.filter fun e => e.timestamp ≤ 10)) :=
  ⟨by decide, by decide, by decide,
    seek_snapshot_equivalence 10 c1GoodEdits [c1GoodSnap] engineInit
      (by decide) (by decide) (by decide)⟩

def c2Edits : List VersionedEdit := [mkEdit 0 0, mkEdit 0 1]

/-- C2 counterexample: the edit log `c2Edits` has two edits sharing timestamp
0 (non-decreasing order, as the recorder can produce for same-millisecond
edits) and no snapshots; `seekToEditIndex 0` applies BOTH edits and leaves the
current index at 2, not `[0..0]` with index 1 as the claim states for every
edit log. -/
theorem seekToEditIndex_monotone_counterexample :
    (seekToEditIndex 0 c2Edits [] engineInit).toOption.map
        (fun r => (r.1.playbackDoc, r.1.currentEditIndex))
      = some (some [0, 1], 2) ∧
    (some (some [0, 1], 2) : Option (Option Doc × Nat))
      ≠ some (some (replayEdits (c2Edits.take (0 + 1))), 0 + 1) := by
  decide

/-- C2 (amended): for every edit log with strictly increasing timestamps,
snapshot list whose members satisfy the replay invariant and timestamp
coherence, and index `i < edits.length`, `seekToEditIndex i` succeeds with a
materialized document equal to replaying exactly edits `0..i` from empty and
a current edit index of `i + 1`. -/
theorem seekToEditIndex_monotone (edits : List VersionedEdit)
    (snapshots : List Snapshot) (st : EngineState) (i : Nat)
    (hstrict : timestampsStrict edits)
    (hinv : ∀ s ∈ snapshots, snapshotInvariant edits s)
    (hcoh : ∀ s ∈ snapshots, snapshotCoherent edits s)
    (hi : i < edits.length) :
    ∃ st1 evs, seekToEditIndex (i : Int) edits snapshots st = Except.ok (st1, evs) ∧
      st1.playbackDoc = some (replayEdits (edits.take (i + 1))) ∧
      st1.currentEditIndex = i + 1 := by
  obtain ⟨h1, h2, h3⟩ := seekToEditIndex_spec edits snapshots st i hstrict hinv hcoh hi
  exact ⟨_, _, by rw [h1], h2, h3⟩

def c2GoodEdits : List VersionedEdit := [mkEdit 0 0, mkEdit 10 1]

/-- C2 witness: the amended theorem applied to a concrete strictly-increasing
two-edit log with no snapshots, at index 0. -/
theorem seekToEditIndex_monotone_witness :
    timestampsStrict c2GoodEdits ∧
    (0 : Nat) < c2GoodEdits.length ∧
    (∃ st1 evs, seekToEditIndex ((0 : Nat) : Int) c2GoodEdits [] engineInit
        = Except.ok (st1, evs) ∧
      st1.playbackDoc = some (replayEdits (c2GoodEdits.take (0 + 1))) ∧
      st1.currentEditIndex = 0 + 1) :=
  ⟨by decide, by decide,
    seekToEditIndex_monotone c2GoodEdits [] engineInit 0
      (by decide) (by decide) (by decide) (by decide)⟩

/-- C6: `seekToEditIndex i` fails with `InvalidIndex` exactly when `i` is
outside `[0, edits.length)`; for in-range `i` it succeeds and returns exactly
the result of `seekToTimestamp` at the timestamp of edit `i`. -/
theorem seekToEditIndex_invalid_iff (edits : List VersionedEdit)
    (snapshots : List Snapshot) (st : EngineState) :
    (∀ i : Int, seekToEditIndex i edits snapshots st
        = Except.error PlaybackError.invalidIndex
        ↔ (i < 0 ∨ (edits.length : Int) ≤ i)) ∧
    (∀ i : Int, 0 ≤ i → i < (edits.length : Int) →
      ∃ e, edits.get? i.toNat = some e ∧
        seekToEditIndex i edits snapshots st
          = Except.ok (seekToTimestamp e.timestamp edits snapshots st)) := by
  constructor
  · intro i
    constructor
    · intro h
      by_contra hc
      unfold seekToEditIndex at h
      rw [dif_neg hc] at h
      exact absurd h (by simp)
    · intro hc
      unfold seekToEditIndex
      rw [dif_pos hc]
  · intro i h0 hl
    have hcond : ¬(i < 0 ∨ (edits.length : Int) ≤ i) := by omega
    have hlt : i.toNat < edits.length := by omega
    refine ⟨edits.get ⟨i.toNat, hlt⟩, List.get?_eq_get hlt, ?_⟩
    unfold seekToEditIndex
    rw [dif_neg hcond]

/-- C6 witness: on a one-edit log, index 5 fails with `InvalidIndex` and
index 0 delegates to `seekToTimestamp` at edit 0's timestamp. -/
theorem seekToEditIndex_invalid_iff_witness :
    (seekToEditIndex 5 [mkEdit 0 0] [] engineInit
        = Except.error PlaybackError.invalidIndex
      ↔ ((5 : Int) < 0 ∨ (([mkEdit 0 0] : List VersionedEdit).length : Int) ≤ 5)) ∧
    ((0 : Int) ≤ 0 ∧ (0 : Int) < (([mkEdit 0 0] : List VersionedEdit).length : Int)) ∧
    (∃ e, ([mkEdit 0 0] : List VersionedEdit).get? (0 : Int).toNat = some e ∧
      seekToEditIndex 0 [mkEdit 0 0] [] engineInit
        = Except.ok (seekToTimestamp e.timestamp [mkEdit 0 0] [] engineInit)) :=
  ⟨(seekToEditIndex_invalid_iff [mkEdit 0 0] [] engineInit).1 5,
   ⟨by decide, by decide⟩,
   (seekToEditIndex_invalid_iff [mkEdit 0 0] [] engineInit).2 0 (by decide) (by decide)⟩

/-- A 52-edit log with strictly increasing timestamps `0, 1, …, 51` whose
update tags equal their indices. -/
def c8Edits : List VersionedEdit := (List.range 52).map (fun n => mkEdit (Int.ofNat n) n)

/-- C8 counterexample: on the 52-edit log `c8Edits` (no snapshots),
`seekToEditIndex 50` already leaves the current index at 51, so the following
`stepForward` applies the edit at index 51 (not 50) and advances the index to
52 (not 51), contradicting the claim. -/
theorem stepForward_after_seek_counterexample :
    (seekToEditIndex 50 c8Edits [] engineInit).toOption.map
        (fun r => ((stepForward c8Edits r.1).1.currentEditIndex,
          (stepForward c8Edits r.1).2.map (fun ev => ev.edit.map (·.yUpdate))))
      = some (52, [some 51]) ∧
    (52 : Nat) ≠ 51 ∧ (some (51 : Update)) ≠ some 50 := by
  decide

/-- C8 (amended): for every edit log of at least 52 edits with strictly
increasing timestamps and invariant-satisfying, timestamp-coherent snapshots,
`seekToEditIndex 50` followed by `stepForward` advances the current edit
index to 52 and applies the delta of the edit at index 51 (the document
becomes exactly edits `0..51` replayed from empty). -/
theorem stepForward_after_seek (edits : List VersionedEdit)
    (snapshots : List Snapshot) (st : EngineState)
    (hstrict : timestampsStrict edits)
    (hinv : ∀ s ∈ snapshots, snapshotInvariant edits s)
    (hcoh : ∀ s ∈ snapshots, snapshotCoherent edits s)
    (hlen : 52 ≤ edits.length) :
    ∃ st1 evs1, seekToEditIndex 50 edits snapshots st = Except.ok (st1, evs1) ∧
      (stepForward edits st1).1.currentEditIndex = 52 ∧
      (stepForward edits st1).1.playbackDoc = some (replayEdits (edits.take 52)) ∧
      (stepForward edits st1).2.map (fun ev => ev.edit) = [edits.get? 51] := by
  have h50 : (50 : Nat) < edits.length := by omega
  have h51 : (51 : Nat) < edits.length := by omega
  obtain ⟨h1, h2, h3⟩ := seekToEditIndex_spec edits snapshots st 50 hstrict hinv hcoh h50
  have hcast : (((50 : Nat) : Int)) = (50 : Int) := by norm_num
  rw [hcast] at h1
  refine ⟨(seekToTimestamp (edits.get ⟨50, h50⟩).timestamp edits snapshots st).1,
    (seekToTimestamp (edits.get ⟨50, h50⟩).timestamp edits snapshots st).2,
    by rw [h1], ?_⟩
  have hsf := stepForward_applies edits
    (seekToTimestamp (edits.get ⟨50, h50⟩).timestamp edits snapshots st).1
    51 (edits.get ⟨51, h51⟩) h3 (List.get?_eq_get h51)
  rw [hsf]
  refine ⟨by simp, ?_, ?_⟩
  · simp only [applyUpdate, h2, Option.getD_some, Option.some.injEq]
    have key : replayEdits (edits.take 52) =
        replayEdits (edits.take 51) ++ [(edits.get ⟨51, h51⟩).yUpdate] := by
      conv_lhs => rw [show (52 : Nat) = 51 + 1 from rfl, List.take_succ]
      rw [replayEdits_append]
      congr 1
      rw [List.getElem?_eq_getElem h51]
      simp [replayEdits, List.get_eq_getElem]
    rw [key]
  · simp [List.get?_eq_get h51]

/-- C8 witness: the amended theorem applied to the concrete log `c8Edits`. -/
theorem stepForward_after_seek_witness :
    timestampsStrict c8Edits ∧ 52 ≤ c8Edits.length ∧
    (∃ st1 evs1, seekToEditIndex 50 c8Edits [] engineInit = Except.ok (st1, evs1) ∧
      (stepForward c8Edits st1).1.currentEditIndex = 52 ∧
      (stepForward c8Edits st1).1.playbackDoc
        = some (replayEdits (c8Edits.take 52)) ∧
      (stepForward c8Edits st1).2.map (fun ev => ev.edit) = [c8Edits.get? 51]) :=
  ⟨by decide, by decide,
    stepForward_after_seek c8Edits [] engineInit
      (by decide) (by decide) (by decide) (by decide)⟩

/-- `captureEdit` always appends exactly the classified record, whatever the
snapshot branch does. -/
theorem captureEdit_edits (render : Doc → List Char) (ctx : CaptureContext)
    (docState : Doc) (h : HistoryState) :
    (captureEdit render ctx docState h).edits
      = h.edits ++ [capturedEdit render ctx docState h] := by
  unfold captureEdit
  by_cases hs : (h.edits ++ [capturedEdit render ctx docState h]).length
      % h.snapshotInterval = 0
  · rw [if_pos hs]
    simp [createSnapshot]
  · rw [if_neg hs]

/-- C3: for every before/after rendering of the shared container, the
recorder's classification is insert (content recovered by locating `before`
inside `after`, the first `min(50, len(after))` characters of `after` when
`before` does not occur) when `after` is longer, delete with no content when
shorter, format with no content at equal length but different text, unknown
otherwise; and `captureEdit` records every delta with exactly that
classification. -/
theorem captureEdit_classification :
    (∀ before after : List Char,
      (before.length < after.length →
        (classifyOperation before after).1 = Operation.insert ∧
        (classifyOperation before after).2 = some (insertedSlice before after) ∧
        (idxOf? after before = none →
          insertedSlice before after = after.take (min 50 after.length))) ∧
      (after.length < before.length →
        classifyOperation before after = (Operation.delete, none)) ∧
      (after.length = before.length → after ≠ before →
        classifyOperation before after = (Operation.format, none)) ∧
      (after = before →
        classifyOperation before after = (Operation.unknown, none))) ∧
    (∀ (render : Doc → List Char) (ctx : CaptureContext) (docState : Doc)
        (h : HistoryState), ∃ ed,
      (captureEdit render ctx docState h).edits = h.edits ++ [ed] ∧
      ed.operation = (classifyOperation (render docState)
        (render (applyUpdate docState ctx.update))).1 ∧
      ed.content = (classifyOperation (render docState)
        (render (applyUpdate docState ctx.update))).2) := by
  constructor
  · intro before after
    refine ⟨?_, ?_, ?_, ?_⟩
    · intro hlt
      unfold classifyOperation insertedSlice
      rw [if_pos hlt]
      cases hidx : idxOf? after before with
      | none => exact ⟨rfl, rfl, fun _ => rfl⟩
      | some idx =>
        dsimp only
        by_cases h0 : idx = 0
        · subst h0
          rw [if_pos rfl]
          refine ⟨rfl, ?_, by intro hc; exact absurd hc (by simp)⟩
          have hdl : (after.drop before.length).length
              = after.length - before.length := List.length_drop _ _
          rw [Nat.zero_add, List.take_of_length_le (le_of_eq hdl)]
        · rw [if_neg h0]
          exact ⟨rfl, rfl, by intro hc; exact absurd hc (by simp)⟩
    · intro hlt
      unfold classifyOperation
      rw [if_neg (by omega), if_pos hlt]
    · intro hlen hne
      unfold classifyOperation
      rw [if_neg (by omega), if_neg (by omega), if_pos hne]
    · intro heq
      have hlen := congrArg List.length heq
      unfold classifyOperation
      rw [if_neg (by omega), if_neg (by omega), if_neg (by simp [heq])]
  · intro render ctx docState h
    exact ⟨capturedEdit render ctx docState h,
      captureEdit_edits render ctx docState h, rfl, rfl⟩

/-- C3 witness: inserting at the end ("ab" → "abX") is classified as an
insert with content "X", and the capture on a rendering that realises that
pair appends exactly one such record. -/
theorem captureEdit_classification_witness :
    ("ab".toList.length < "abX".toList.length ∧
      (classifyOperation "ab".toList "abX".toList).1 = Operation.insert ∧
      (classifyOperation "ab".toList "abX".toList).2
        = some (insertedSlice "ab".toList "abX".toList) ∧
      insertedSlice "ab".toList "abX".toList = "X".toList) ∧
    (∃ ed, (captureEdit (fun d => if d = [] then "ab".toList else "abX".toList)
        ⟨0, 0, none, 0⟩ [] (historyInit 100)).edits = [] ++ [ed] ∧
      ed.operation = Operation.insert ∧ ed.content = some "X".toList) := by
  constructor
  · have h1 := (captureEdit_classification.1 "ab".toList "abX".toList).1
      (by decide)
    exact ⟨by decide, h1.1, h1.2.1, by decide⟩
  · obtain ⟨ed, hed, hop, hcon⟩ := captureEdit_classification.2
      (fun d => if d = [] then "ab".toList else "abX".toList)
      ⟨0, 0, none, 0⟩ [] (historyInit 100)
    refine ⟨ed, hed, ?_, ?_⟩
    · rw [hop]; decide
    · rw [hcon]; decide

theorem captureAll_edits_length (render : Doc → List Char) :
    ∀ (inputs : List (CaptureContext × Doc)) (h : HistoryState),
      (captureAll render inputs h).edits.length
        = h.edits.length + inputs.length := by
  intro inputs
  induction inputs with
  | nil => intro h; simp [captureAll]
  | cons p rest ih =>
    intro h
    have : captureAll render (p :: rest) h
        = captureAll render rest (captureEdit render p.1 p.2 h) := rfl
    rw [this, ih, captureEdit_edits]
    simp
    omega

/-- The snapshot list after one `captureEdit`: extended by a snapshot with
`editIndex = edits.length` exactly when the new edit count is a multiple of
the interval, unchanged otherwise. -/
theorem captureEdit_snapshots (render : Doc → List Char) (ctx : CaptureContext)
    (docState : Doc) (h : HistoryState) :
    ((captureEdit render ctx docState h).snapshots.length
        = h.snapshots.length + 1 ↔ h.snapshotInterval ∣ (h.edits.length + 1)) ∧
    (¬ h.snapshotInterval ∣ (h.edits.length + 1) →
      (captureEdit render ctx docState h).snapshots = h.snapshots) ∧
    (h.snapshotInterval ∣ (h.edits.length + 1) →
      ∃ snap, (captureEdit render ctx docState h).snapshots
          = h.snapshots ++ [snap] ∧ snap.editIndex = (h.edits.length : Int)) := by
  have hlen : (h.edits ++ [capturedEdit render ctx docState h]).length
      = h.edits.length + 1 := by simp
  by_cases hd : h.snapshotInterval ∣ (h.edits.length + 1)
  · have hmod : (h.edits ++ [capturedEdit render ctx docState h]).length
        % h.snapshotInterval = 0 := by
      rw [hlen]; exact Nat.mod_eq_zero_of_dvd hd
    unfold captureEdit
    rw [if_pos hmod]
    unfold createSnapshot
    refine ⟨?_, ?_, ?_⟩
    · simp [hd]
    · intro hc; exact absurd hd hc
    · intro _
      refine ⟨_, rfl, ?_⟩
      simp only [hlen]
      push_cast
      ring
  · have hmod : ¬ (h.edits ++ [capturedEdit render ctx docState h]).length
        % h.snapshotInterval = 0 := by
      rw [hlen]
      intro hc
      exact hd (Nat.dvd_of_mod_eq_zero hc)
    unfold captureEdit
    rw [if_neg hmod]
    exact ⟨by simp [hd], fun _ => rfl, fun hc => absurd hc hd⟩

/-- `captureEdit` never changes the snapshot interval. -/
theorem captureEdit_interval (render : Doc → List Char) (ctx : CaptureContext)
    (docState : Doc) (h : HistoryState) :
    (captureEdit render ctx docState h).snapshotInterval = h.snapshotInterval := by
  unfold captureEdit
  by_cases hs : (h.edits ++ [capturedEdit render ctx docState h]).length
      % h.snapshotInterval = 0
  · rw [if_pos hs]
    rfl
  · rw [if_neg hs]

/-- Invariant driving the 100-edit cadence scenario: interval 100 and the
newest snapshot's `editIndex` is one less than the largest multiple of 100
not exceeding the edit count (so `-1` before 100 edits, `99` at 100). -/
def cadence100 (h : HistoryState) : Prop :=
  h.snapshotInterval = 100 ∧
  h.snapshots.getLast?.map (·.editIndex)
    = some (((h.edits.length / 100 * 100 : Nat) : Int) - 1)

theorem cadence100_step (render : Doc → List Char) (ctx : CaptureContext)
    (docState : Doc) (h : HistoryState) (hc : cadence100 h) :
    cadence100 (captureEdit render ctx docState h) := by
  obtain ⟨hint, hlast⟩ := hc
  have hed := captureEdit_edits render ctx docState h
  have hsnap := captureEdit_snapshots render ctx docState h
  by_cases hd : h.snapshotInterval ∣ (h.edits.length + 1)
  · obtain ⟨snap, hs, hidx⟩ := hsnap.2.2 hd
    refine ⟨by rw [captureEdit_interval]; exact hint, ?_⟩
    rw [hs, List.getLast?_concat, hed]
    simp only [Option.map_some', Option.some.injEq, hidx]
    rw [hint] at hd
    have : (h.edits.length + 1) / 100 * 100 = h.edits.length + 1 :=
      Nat.div_mul_cancel hd
    simp only [List.length_append, List.length_cons, List.length_nil]
    push_cast [this]
    ring
  · rw [hint] at hd
    refine ⟨by rw [captureEdit_interval]; exact hint, ?_⟩
    rw [hsnap.2.1 (hint ▸ hd), hed, hlast]
    simp only [Option.some.injEq, List.length_append, List.length_cons,
      List.length_nil]
    have : (h.edits.length + 1) / 100 * 100 = h.edits.length / 100 * 100 := by
      omega
    rw [show h.edits.length + (1 + 0) = h.edits.length + 1 by omega, this]

theorem cadence100_all (render : Doc → List Char) :
    ∀ (inputs : List (CaptureContext × Doc)) (h : HistoryState),
      cadence100 h → cadence100 (captureAll render inputs h) := by
  intro inputs
  induction inputs with
  | nil => intro h hc; exact hc
  | cons p rest ih =>
    intro h hc
    exact ih (captureEdit render p.1 p.2 h) (cadence100_step render p.1 p.2 h hc)

/-- C4: one snapshot at tracking start with `editIndex = -1` on a fresh
history; thereafter `captureEdit` adds a snapshot exactly when the new edit
count is a multiple of `snapshotInterval` (with `editIndex` = the new last
edit's index); and with interval 100, after exactly 100 recorded edits the
snapshot count is at least 1 and the newest snapshot's `editIndex` is 99. -/
theorem snapshot_cadence :
    (∀ (now : Int) (render : Doc → List Char) (docState : Doc),
      (initializeVersionTracking now render docState (historyInit 100)).snapshots.length = 1 ∧
      (initializeVersionTracking now render docState (historyInit 100)).snapshots.map
          (·.editIndex) = [-1]) ∧
    (∀ (render : Doc → List Char) (ctx : CaptureContext) (docState : Doc)
        (h : HistoryState),
      ((captureEdit render ctx docState h).snapshots.length
          = h.snapshots.length + 1 ↔ h.snapshotInterval ∣ (h.edits.length + 1)) ∧
      (¬ h.snapshotInterval ∣ (h.edits.length + 1) →
        (captureEdit render ctx docState h).snapshots = h.snapshots) ∧
      (h.snapshotInterval ∣ (h.edits.length + 1) →
        ∃ snap, (captureEdit render ctx docState h).snapshots
            = h.snapshots ++ [snap] ∧ snap.editIndex = (h.edits.length : Int))) ∧
    (∀ (now : Int) (render : Doc → List Char) (docState : Doc)
        (inputs : List (CaptureContext × Doc)), inputs.length = 100 →
      1 ≤ (captureAll render inputs
          (initializeVersionTracking now render docState (historyInit 100))).snapshots.length ∧
      ((captureAll render inputs
          (initializeVersionTracking now render docState (historyInit 100))).snapshots.getLast?).map
            (·.editIndex) = some 99) := by
  refine ⟨?_, fun render ctx docState h => captureEdit_snapshots render ctx docState h, ?_⟩
  · intro now render docState
    simp [initializeVersionTracking, createSnapshot, historyInit]
  · intro now render docState inputs hlen
    have hbase : cadence100 (initializeVersionTracking now render docState (historyInit 100)) := by
      refine ⟨rfl, ?_⟩
      simp [initializeVersionTracking, createSnapshot, historyInit]
    have hfin := cadence100_all render inputs _ hbase
    have hfinlen : (captureAll render inputs
        (initializeVersionTracking now render docState (historyInit 100))).edits.length = 100 := by
      rw [captureAll_edits_length, hlen]
      simp [initializeVersionTracking, createSnapshot, historyInit]
    obtain ⟨_, hlast⟩ := hfin
    rw [hfinlen] at hlast
    have h99 : (((100 : Nat) / 100 * 100 : Nat) : Int) - 1 = 99 := by norm_num
    rw [h99] at hlast
    refine ⟨?_, hlast⟩
    cases hsn : (captureAll render inputs
        (initializeVersionTracking now render docState (historyInit 100))).snapshots with
    | nil => rw [hsn] at hlast; simp at hlast
    | cons a l => simp

/-- C4 witness: 100 concrete captured deltas on a fresh interval-100 history
yield at least one snapshot with the newest one's `editIndex` equal to 99. -/
theorem snapshot_cadence_witness :
    (List.replicate 100 ((⟨0, 0, none, 0⟩ : CaptureContext), ([] : Doc))).length = 100 ∧
    (1 ≤ (captureAll (fun _ => [])
        (List.replicate 100 ((⟨0, 0, none, 0⟩ : CaptureContext), ([] : Doc)))
        (initializeVersionTracking 0 (fun _ => []) [] (historyInit 100))).snapshots.length ∧
      ((captureAll (fun _ => [])
        (List.replicate 100 ((⟨0, 0, none, 0⟩ : CaptureContext), ([] : Doc)))
        (initializeVersionTracking 0 (fun _ => []) [] (historyInit 100))).snapshots.getLast?).map
          (·.editIndex) = some 99) :=
  ⟨by decide,
    snapshot_cadence.2.2 0 (fun _ => []) []
      (List.replicate 100 ((⟨0, 0, none, 0⟩ : CaptureContext), ([] : Doc)))
      (by decide)⟩

/-- C7: `setPlaybackSpeed` fails with `InvalidSpeed` exactly when the speed
is nonpositive; a positive speed is stored (so `getPlaybackSpeed` returns it)
and a speed-change event is delivered to every subscriber; in particular 0
and -1 fail and after setting 2 the getter returns 2. -/
theorem setPlaybackSpeed_validation :
    (∀ (speed : ℚ) (now : Int) (st : EngineState),
      setPlaybackSpeed speed now st = Except.error PlaybackError.invalidSpeed
        ↔ speed ≤ 0) ∧
    (∀ (speed : ℚ) (now : Int) (st : EngineState), 0 < speed →
      ∃ st1 evs, setPlaybackSpeed speed now st = Except.ok (st1, evs) ∧
        getPlaybackSpeed st1 = speed ∧
        ∀ l ∈ st.eventListeners,
          (l, { type := PlaybackEventType.speedChange
                currentEditIndex := st.currentEditIndex
                totalEdits := 0
                currentTimestamp := now
                edit := none }) ∈ deliveries st evs) ∧
    (∀ (now : Int) (st : EngineState),
      setPlaybackSpeed 0 now st = Except.error PlaybackError.invalidSpeed) ∧
    (∀ (now : Int) (st : EngineState),
      setPlaybackSpeed (-1) now st = Except.error PlaybackError.invalidSpeed) ∧
    (∀ (now : Int) (st : EngineState) (st1 : EngineState)
        (evs : List PlaybackEvent),
      setPlaybackSpeed 2 now st = Except.ok (st1, evs) →
        getPlaybackSpeed st1 = 2) := by
  refine ⟨?_, ?_, ?_, ?_, ?_⟩
  · intro speed now st
    by_cases hs : speed ≤ 0
    · unfold setPlaybackSpeed
      rw [if_pos hs]
      simp [hs]
    · unfold setPlaybackSpeed
      rw [if_neg hs]
      simp [hs]
  · intro speed now st hpos
    refine ⟨{ st with playbackSpeed := speed },
      [{ type := PlaybackEventType.speedChange
         currentEditIndex := st.currentEditIndex
         totalEdits := 0
         currentTimestamp := now
         edit := none }], ?_, rfl, ?_⟩
    · unfold setPlaybackSpeed
      rw [if_neg (not_le.mpr hpos)]
    · intro l hl
      simp only [deliveries, List.foldr_cons, List.foldr_nil, List.append_nil]
      exact List.mem_map.mpr ⟨l, hl, rfl⟩
  · intro now st
    unfold setPlaybackSpeed
    rw [if_pos (by norm_num)]
  · intro now st
    unfold setPlaybackSpeed
    rw [if_pos (by norm_num)]
  · intro now st st1 evs hok
    unfold setPlaybackSpeed at hok
    rw [if_neg (by norm_num)] at hok
    simp only [Except.ok.injEq, Prod.mk.injEq] at hok
    rw [← hok.1]
    rfl

/-- C7 witness: on an engine with one subscriber, setting speed 2 succeeds,
the getter returns 2, and the subscriber receives the speed-change event;
setting 0 and -1 fail. -/
theorem setPlaybackSpeed_validation_witness :
    (0 : ℚ) < 2 ∧
    (∃ st1 evs, setPlaybackSpeed 2 0 { engineInit with eventListeners := [7] }
        = Except.ok (st1, evs) ∧
      getPlaybackSpeed st1 = 2 ∧
      ∀ l ∈ ({ engineInit with eventListeners := [7] } : EngineState).eventListeners,
        (l, { type := PlaybackEventType.speedChange
              currentEditIndex := ({ engineInit with eventListeners := [7] } : EngineState).currentEditIndex
              totalEdits := 0
              currentTimestamp := 0
              edit := none }) ∈ deliveries { engineInit with eventListeners := [7] } evs) :=
  ⟨by norm_num,
    setPlaybackSpeed_validation.2.1 2 0 { engineInit with eventListeners := [7] }
      (by norm_num)⟩

/-- C10: `stepBackward` at current edit index 0 is a no-op: it returns the
existing playback document (or a fresh empty one when none is materialized),
leaves the whole engine state unchanged, and emits no event. -/
theorem stepBackward_noop_at_start (edits : List VersionedEdit)
    (snapshots : List Snapshot) (st : EngineState)
    (h : st.currentEditIndex = 0) :
    stepBackward edits snapshots st = some (st.playbackDoc.getD [], st, []) := by
  unfold stepBackward
  rw [if_pos h]

/-- C10 witness: `stepBackward` on the fresh engine (index 0, no document)
returns the empty document, the unchanged state and no events. -/
theorem stepBackward_noop_at_start_witness :
    engineInit.currentEditIndex = 0 ∧
    stepBackward [] [] engineInit = some (engineInit.playbackDoc.getD [], engineInit, []) :=
  ⟨rfl, stepBackward_noop_at_start [] [] engineInit rfl⟩

/-! Trace lemmas for `playForward`. -/

/-- A paused loop does nothing further: it fails its `while` check at once
and skips the end-of-log stop emission. -/
theorem playLoop_not_playing (edits : List VersionedEdit) (speed : ℚ)
    (pauseAt : Nat → Bool) (now : Int) (rest : List VersionedEdit) (doc : Doc)
    (idx sleeps : Nat) :
    playLoop edits speed pauseAt now doc idx sleeps false rest
      = (doc, idx, false, []) := by
  cases rest <;> simp [playLoop]

/-- The trace of an unpaused `playForward` loop from index `idx` over `rest`:
each edit's playback event, the capped inter-edit wait between consecutive
edits, and the terminal stop event at the final index. -/
def npTrace (edits : List VersionedEdit) (speed : ℚ) (now : Int) :
    Nat → List VersionedEdit → List TraceItem
  | idx, [] => [TraceItem.emit (forwardStopEvent edits idx now)]
  | idx, e :: rest =>
    match rest.head? with
    | some ne =>
      TraceItem.emit (playbackEvent edits idx e) ::
        TraceItem.wait (playDelay e ne speed) ::
          npTrace edits speed now (idx + 1) rest
    | none =>
      TraceItem.emit (playbackEvent edits idx e) ::
        npTrace edits speed now (idx + 1) rest

theorem playLoop_noPause (edits : List VersionedEdit) (speed : ℚ) (now : Int) :
    ∀ (rest : List VersionedEdit) (doc : Doc) (idx sleeps : Nat),
      playLoop edits speed (fun _ => false) now doc idx sleeps true rest =
        (doc ++ replayEdits rest, idx + rest.length, false,
          npTrace edits speed now idx rest) := by
  intro rest
  induction rest with
  | nil => intro doc idx sleeps; simp [playLoop, npTrace, replayEdits]
  | cons e rest2 ih =>
    intro doc idx sleeps
    cases hh : rest2.head? with
    | none =>
      have h2 : rest2 = [] := List.head?_eq_none_iff.mp hh
      subst h2
      simp [playLoop, npTrace, replayEdits, applyUpdate]
    | some ne =>
      simp only [playLoop, npTrace, hh, ih, applyUpdate, replayEdits]
      simp [Prod.mk.injEq, List.append_assoc, replayEdits]
      omega

/-- Whether a `playForward` loop run over `rest` (with `sleeps` sleeps
already taken) ends because `pause()` fires during one of the sleeps it
actually executes, rather than by reaching the end of the log.  Mirrors the
suspension points of `playLoop`: a sleep happens only between an edit and its
successor, and after a pause no further sleep is reached. -/
def pausedDuring (pauseAt : Nat → Bool) : Nat → List VersionedEdit → Bool
  | _, [] => false
  | sleeps, _ :: rest =>
    match rest.head? with
    | some _ =>
      if pauseAt sleeps then true else pausedDuring pauseAt (sleeps + 1) rest
    | none => pausedDuring pauseAt sleeps rest

/-- Whether a `playForward` call on state `st` ends by pause: the loop runs
over the edits from the starting index (0 when no document is materialized)
with the sleep counter starting at 0. -/
def playForwardPaused (edits : List VersionedEdit) (pauseAt : Nat → Bool)
    (st : EngineState) : Bool :=
  pausedDuring pauseAt 0
    (edits.drop (match st.playbackDoc with
      | some _ => st.currentEditIndex
      | none => 0))

/-- A stop event always closes the trace of a running loop; it carries the
final index when the loop ran to the end of the log, and the index just
before the final increment when `pause()` fired during one of the run's
sleeps. -/
theorem playLoop_stop (edits : List VersionedEdit) (speed : ℚ)
    (pauseAt : Nat → Bool) (now : Int) :
    ∀ (rest : List VersionedEdit) (doc : Doc) (idx sleeps : Nat),
      ∃ pre ev,
        (playLoop edits speed pauseAt now doc idx sleeps true rest).2.2.2
          = pre ++ [TraceItem.emit ev] ∧
        ev.type = PlaybackEventType.stop ∧
        (pausedDuring pauseAt sleeps rest = true →
          ev.currentEditIndex + 1
            = (playLoop edits speed pauseAt now doc idx sleeps true rest).2.1) ∧
        (pausedDuring pauseAt sleeps rest = false →
          ev.currentEditIndex
            = (playLoop edits speed pauseAt now doc idx sleeps true rest).2.1) := by
  intro rest
  induction rest with
  | nil =>
    intro doc idx sleeps
    refine ⟨[], forwardStopEvent edits idx now, ?_, rfl, ?_, ?_⟩
    · simp [playLoop]
    · intro hx
      simp [pausedDuring] at hx
    · intro _
      simp [playLoop, forwardStopEvent]
  | cons e rest2 ih =>
    intro doc idx sleeps
    cases hh : rest2.head? with
    | none =>
      have h2 : rest2 = [] := List.head?_eq_none_iff.mp hh
      subst h2
      refine ⟨[TraceItem.emit (playbackEvent edits idx e)],
        forwardStopEvent edits (idx + 1) now, ?_, rfl, ?_, ?_⟩
      · simp [playLoop]
      · intro hx
        simp [pausedDuring] at hx
      · intro _
        simp [playLoop, forwardStopEvent]
    | some ne =>
      have hpd : pausedDuring pauseAt sleeps (e :: rest2)
          = (if pauseAt sleeps then true
             else pausedDuring pauseAt (sleeps + 1) rest2) := by
        simp [pausedDuring, hh]
      by_cases hp : pauseAt sleeps
      · have hfin : (playLoop edits speed pauseAt now doc idx sleeps true
            (e :: rest2)).2.1 = idx + 1 := by
          simp only [playLoop, hh]
          simp [hp, playLoop_not_playing]
        refine ⟨[TraceItem.emit (playbackEvent edits idx e),
                 TraceItem.wait (playDelay e ne speed)],
          { type := PlaybackEventType.stop
            currentEditIndex := idx
            totalEdits := 0
            currentTimestamp := now
            edit := none }, ?_, rfl, ?_, ?_⟩
        · simp only [playLoop, hh]
          simp [hp, playLoop_not_playing]
        · intro _
          rw [hfin]
        · intro hx
          rw [hpd, if_pos hp] at hx
          exact absurd hx (by simp)
      · obtain ⟨pre, ev, h1, h2, h3, h4⟩ := ih (applyUpdate doc e.yUpdate)
          (idx + 1) (sleeps + 1)
        have hpd2 : pausedDuring pauseAt sleeps (e :: rest2)
            = pausedDuring pauseAt (sleeps + 1) rest2 := by
          rw [hpd, if_neg hp]
        have hfin : (playLoop edits speed pauseAt now doc idx sleeps true
              (e :: rest2)).2.1
            = (playLoop edits speed pauseAt now (applyUpdate doc e.yUpdate)
                (idx + 1) (sleeps + 1) true rest2).2.1 := by
          simp only [playLoop, hh]
          simp [hp]
        refine ⟨TraceItem.emit (playbackEvent edits idx e) ::
            TraceItem.wait (playDelay e ne speed) :: pre, ev, ?_, h2, ?_, ?_⟩
        · simp only [playLoop, hh]
          simp [hp, h1]
        · intro hx
          rw [hpd2] at hx
          rw [hfin]
          exact h3 hx
        · intro hx
          rw [hpd2] at hx
          rw [hfin]
          exact h4 hx

/-- C9 (amended): every `playForward` run yields a finite trace ending in a
stop event; the event carries the final edit index when the run ended by
reaching the end of the log, and the index just before the final increment
(the final index minus one) when it ended because `pause()` fired during one
of its sleeps. -/
theorem playForward_terminal_stop (edits : List VersionedEdit)
    (snapshots : List Snapshot) (pauseAt : Nat → Bool) (now : Int)
    (st : EngineState) :
    ∃ pre ev,
      (playForward edits snapshots pauseAt now st).2
        = pre ++ [TraceItem.emit ev] ∧
      ev.type = PlaybackEventType.stop ∧
      (playForwardPaused edits pauseAt st = true →
        ev.currentEditIndex + 1
          = (playForward edits snapshots pauseAt now st).1.currentEditIndex) ∧
      (playForwardPaused edits pauseAt st = false →
        ev.currentEditIndex
          = (playForward edits snapshots pauseAt now st).1.currentEditIndex) := by
  unfold playForward playForwardPaused
  cases hd : st.playbackDoc with
  | none =>
    have h := playLoop_stop edits st.playbackSpeed pauseAt now (edits.drop 0) [] 0 0
    simpa using h
  | some d =>
    have h := playLoop_stop edits st.playbackSpeed pauseAt now
      (edits.drop st.currentEditIndex) d st.currentEditIndex 0
    simpa using h

/-- A two-edit log, timestamps 0 and 1000, update tags 0 and 1. -/
def pairEdits : List VersionedEdit := [mkEdit 0 0, mkEdit 1000 1]

/-- C9 counterexample: pausing during the first sleep of a `playForward` run
over `pairEdits` produces a terminal stop event carrying index 0 while the
run's final edit index is 1 — the stop event does not carry the final edit
index as the claim states. -/
theorem playForward_terminal_stop_counterexample :
    (playForward pairEdits [] (fun n => n == 0) 0 engineInit).2.getLast?
      = some (TraceItem.emit
        { type := PlaybackEventType.stop
          currentEditIndex := 0
          totalEdits := 0
          currentTimestamp := 0
          edit := none }) ∧
    (playForward pairEdits [] (fun n => n == 0) 0 engineInit).1.currentEditIndex = 1 ∧
    (0 : Nat) ≠ 1 := by
  decide

/-- C9 witness: the amended theorem applied to the concrete paused run over
`pairEdits` (pause during the first sleep), whose cause predicate evaluates
to `true`. -/
theorem playForward_terminal_stop_witness :
    playForwardPaused pairEdits (fun n => n == 0) engineInit = true ∧
    (∃ pre ev,
      (playForward pairEdits [] (fun n => n == 0) 0 engineInit).2
        = pre ++ [TraceItem.emit ev] ∧
      ev.type = PlaybackEventType.stop ∧
      (playForwardPaused pairEdits (fun n => n == 0) engineInit = true →
        ev.currentEditIndex + 1
          = (playForward pairEdits [] (fun n => n == 0) 0 engineInit).1.currentEditIndex) ∧
      (playForwardPaused pairEdits (fun n => n == 0) engineInit = false →
        ev.currentEditIndex
          = (playForward pairEdits [] (fun n => n == 0) 0 engineInit).1.currentEditIndex)) := by
  constructor
  · decide
  · exact playForward_terminal_stop pairEdits [] (fun n => n == 0) 0 engineInit

theorem npTrace_adjacent (edits : List VersionedEdit) (speed : ℚ) (now : Int) :
    ∀ (rest : List VersionedEdit) (idx k : Nat), rest = edits.drop idx →
      idx ≤ k → k + 1 < edits.length →
      ∃ pre suf e ne, edits.get? k = some e ∧ edits.get? (k + 1) = some ne ∧
        npTrace edits speed now idx rest =
          pre ++ TraceItem.emit (playbackEvent edits k e) ::
            TraceItem.wait (playDelay e ne speed) ::
              TraceItem.emit (playbackEvent edits (k + 1) ne) :: suf := by
  intro rest
  induction rest with
  | nil =>
    intro idx k hrest hik hk
    have : edits.length ≤ idx := List.drop_eq_nil_iff.mp hrest.symm
    omega
  | cons e rest2 ih =>
    intro idx k hrest hik hk
    have hget : edits.get? idx = some e := by
      have h0 : (edits.drop idx).get? 0 = some e := by rw [← hrest]; rfl
      rw [List.get?_drop] at h0
      simpa using h0
    have hrest2 : rest2 = edits.drop (idx + 1) := by
      have htail : (edits.drop idx).tail = edits.drop (idx + 1) := by
        rw [← List.drop_one, List.drop_drop, Nat.add_comm]
      rw [← htail, ← hrest]
      rfl
    rcases Nat.eq_or_lt_of_le hik with heq | hlt
    · subst heq
      cases hr2 : rest2 with
      | nil =>
        exfalso
        rw [hr2] at hrest2
        have : edits.length ≤ idx + 1 := List.drop_eq_nil_iff.mp hrest2.symm
        omega
      | cons ne rest3 =>
        subst hr2
        have hgetn : edits.get? (idx + 1) = some ne := by
          have h0 : (edits.drop (idx + 1)).get? 0 = some ne := by
            rw [← hrest2]; rfl
          rw [List.get?_drop] at h0
          simpa using h0
        cases rest3 with
        | nil =>
          exact ⟨[], [TraceItem.emit (forwardStopEvent edits (idx + 1 + 1) now)],
            e, ne, hget, hgetn, by simp [npTrace]⟩
        | cons ne2 rest4 =>
          exact ⟨[], TraceItem.wait (playDelay ne ne2 speed) ::
              npTrace edits speed now (idx + 1 + 1) (ne2 :: rest4),
            e, ne, hget, hgetn, by simp [npTrace]⟩
    · cases hh : rest2.head? with
      | none =>
        exfalso
        have h2 : rest2 = [] := List.head?_eq_none_iff.mp hh
        rw [h2] at hrest2
        have : edits.length ≤ idx + 1 := List.drop_eq_nil_iff.mp hrest2.symm
        omega
      | some ne2 =>
        obtain ⟨pre, suf, e', ne', hg1, hg2, htr⟩ :=
          ih (idx + 1) k hrest2 (by omega) hk
        refine ⟨TraceItem.emit (playbackEvent edits idx e) ::
            TraceItem.wait (playDelay e ne2 speed) :: pre, suf, e', ne',
          hg1, hg2, ?_⟩
        simp only [npTrace, hh]
        rw [htr]
        simp

/-- C5: between the playback events for consecutive edits `k` and `k + 1` an
unpaused `playForward` run (from a fresh document) waits exactly
`min(2000, (timestamps gap) / speed)` milliseconds; the formula gives 500 for
speed 2 and a 1000 ms gap, 2000 for speed 2 and a 10000 ms gap, and never
exceeds the 2000 ms cap for any speed. -/
theorem playForward_pacing :
    (∀ (edits : List VersionedEdit) (snapshots : List Snapshot)
        (now : Int) (st : EngineState) (k : Nat),
      st.playbackDoc = none → k + 1 < edits.length →
      ∃ pre suf e ne, edits.get? k = some e ∧ edits.get? (k + 1) = some ne ∧
        (playForward edits snapshots (fun _ => false) now st).2 =
          pre ++ TraceItem.emit (playbackEvent edits k e) ::
            TraceItem.wait
              (min 2000 (((ne.timestamp - e.timestamp : Int) : ℚ) / st.playbackSpeed)) ::
              TraceItem.emit (playbackEvent edits (k + 1) ne) :: suf) ∧
    (∀ e ne : VersionedEdit, ne.timestamp - e.timestamp = 1000 →
      playDelay e ne 2 = 500) ∧
    (∀ e ne : VersionedEdit, ne.timestamp - e.timestamp = 10000 →
      playDelay e ne 2 = 2000) ∧
    (∀ (e ne : VersionedEdit) (speed : ℚ), ne.timestamp - e.timestamp = 10000 →
      playDelay e ne speed ≤ 2000) := by
  refine ⟨?_, ?_, ?_, ?_⟩
  · intro edits snapshots now st k hdoc hk
    obtain ⟨pre, suf, e, ne, hg1, hg2, htr⟩ :=
      npTrace_adjacent edits st.playbackSpeed now edits 0 k (by simp)
        (Nat.zero_le k) hk
    refine ⟨pre, suf, e, ne, hg1, hg2, ?_⟩
    have hmin : playDelay e ne st.playbackSpeed
        = min 2000 (((ne.timestamp - e.timestamp : Int) : ℚ) / st.playbackSpeed) := by
      unfold playDelay
      exact min_comm _ _
    unfold playForward
    rw [hdoc]
    simp only [List.drop_zero, playLoop_noPause]
    rw [htr, hmin]
  · intro e ne h
    unfold playDelay
    rw [h]
    norm_num [min_def]
  · intro e ne h
    unfold playDelay
    rw [h]
    norm_num [min_def]
  · intro e ne speed h
    unfold playDelay
    exact min_le_right _ _

/-- C5 witness: the pacing statement applied to the two-edit log `pairEdits`
at speed 2 — in the resulting trace, 500 ms separate the two playback
events. -/
theorem playForward_pacing_witness :
    (({ engineInit with playbackSpeed := 2 } : EngineState).playbackDoc = none) ∧
    (0 + 1 < pairEdits.length) ∧
    (∃ pre suf e ne, pairEdits.get? 0 = some e ∧ pairEdits.get? (0 + 1) = some ne ∧
      (playForward pairEdits [] (fun _ => false) 0
          { engineInit with playbackSpeed := 2 }).2 =
        pre ++ TraceItem.emit (playbackEvent pairEdits 0 e) ::
          TraceItem.wait
            (min 2000 (((ne.timestamp - e.timestamp : Int) : ℚ)
              / ({ engineInit with playbackSpeed := 2 } : EngineState).playbackSpeed)) ::
            TraceItem.emit (playbackEvent pairEdits (0 + 1) ne) :: suf) :=
  ⟨rfl, by decide,
    playForward_pacing.1 pairEdits [] 0 { engineInit with playbackSpeed := 2 } 0
      rfl (by decide)⟩

end BlockEditor
